import Mathlib

/-!
# Multipart stream parser: formal model and verification

A shallow embedding of the streaming multipart parser described by the
repository's specification.  The repository's visible sources contain the
package's test file (`multipart_test.go`), whose tests (`TestBoundaryLine`,
`TestMultipart`, `TestVariousTextLineEndings`, `TestMultipartTruncated`,
`TestLineLimit`, `TestZeroLengthBody`, `TestNameAccessors`, ...) exercise the
parser; the parser implementation itself is not among the visible sources, so
the definitions below are modelled from the specification (each such
definition says so in its doc comment) and validated against the behaviour
the test file demands.

Bytes are modelled as `Char` (all inputs exercised are 8-bit), a byte stream
as `List Char`.  Fallible operations return `Except MErr`.
-/

namespace Multipart

/-- The CRLF line terminator. -/
def crlf : List Char := ['\r', '\n']

/-- Two dashes, the delimiter marker. -/
def dashDash : List Char := ['-', '-']

/-- Modelled from the spec: the Line Scanner "enforces a maximum line length
(a large fixed threshold, e.g. on the order of 1 MiB) to bound memory
consumption"; the test file's `maxReadThreshold` is `1 << 20`. -/
def maxLineLength : Nat := 1048576

/-- Modelled from the spec's error taxonomy (§7): `SizeLimitExceeded`,
`UnexpectedEndOfInput`, `MalformedInput`. -/
inductive MErr where
  | sizeLimitExceeded
  | unexpectedEndOfInput
  | malformedInput
deriving DecidableEq

/-- Modelled from the spec: the signal returned by `next_part` once no part is
available: either the normal `NoMoreParts` terminal signal or a terminal
error. -/
inductive EndSignal where
  | noMoreParts
  | err (e : MErr)
deriving DecidableEq

/-- Modelled from the spec's data model: a `Part` carries its parsed header
mapping (name/value pairs in order of appearance) and the outcome of fully
reading its body: either the body's bytes or the error discovered while
reading. -/
structure Part where
  headers : List (List Char × List Char)
  body : Except MErr (List Char)

/-! ## Line scanner (list form)

Modelled from the spec (§4.1): the scanner produces the maximal runs of bytes
up to and including a line terminator, or up to end of stream.  A line ends
at `'\n'`; whether the terminator was CRLF, bare LF, or missing (end of
stream mid-line) is recovered from the line's final bytes by `splitTerm`. -/

/-- Modelled from the spec: accumulate bytes of the current line in `buf`;
each `'\n'` completes a line; a nonempty trailing `buf` at end of stream is an
unterminated final line. -/
def splitLinesAux : List Char → List Char → List (List Char)
  | buf, [] => if buf = [] then [] else [buf]
  | buf, c :: cs =>
    if c = '\n' then (buf ++ ['\n']) :: splitLinesAux [] cs
    else splitLinesAux (buf ++ [c]) cs

/-- The lines of a byte stream. -/
def splitLines (s : List Char) : List (List Char) := splitLinesAux [] s

/-- Split a line into its content and its terminator (`[]`, `['\n']`, or
`['\r','\n']`).  A `'\r'` not immediately followed by the final `'\n'` is
ordinary content. -/
def splitTerm (l : List Char) : List Char × List Char :=
  if l.getLast? = some '\n' then
    if l.dropLast.getLast? = some '\r' then (l.dropLast.dropLast, ['\r', '\n'])
    else (l.dropLast, ['\n'])
  else (l, [])

/-! ## Boundary delimiter classification

Modelled from the spec (§3, §4.2): a delimiter line is `--` + boundary token,
optionally followed immediately by `--` (final delimiter), then only
horizontal whitespace, terminated by a line break.  Comparison is byte-exact
and case-sensitive. -/

/-- Whether every byte is horizontal whitespace (space or tab).  Named after
the test file's `onlyHorizontalWhitespace`. -/
def onlyHorizontalWhitespace (s : List Char) : Bool :=
  s.all fun c => c = ' ' || c = '\t'

/-- `--` followed by the boundary token. -/
def dashBoundary (b : List Char) : List Char := dashDash ++ b

/-- Strip one leading `--` if present. -/
def stripDashDash (s : List Char) : List Char :=
  if dashDash.isPrefixOf s then s.drop 2 else s

/-- Modelled from the spec: "a line is tested as a delimiter by exact prefix
comparison against `--<boundary>`; the remainder of the line, after stripping
an optional second `--`, must consist solely of horizontal whitespace before
the terminator."  Named after the test file's `isBoundaryDelimiterLine`. -/
def isBoundaryDelimiterLine (b line : List Char) : Bool :=
  (dashBoundary b).isPrefixOf line &&
    (let r := stripDashDash (line.drop (dashBoundary b).length)
     onlyHorizontalWhitespace (splitTerm r).1 && !(splitTerm r).2.isEmpty)

/-- Modelled from the spec: the delimiter is final when the boundary token is
followed immediately by a second `--`. -/
def isFinalDelimiterLine (b line : List Char) : Bool :=
  isBoundaryDelimiterLine b line &&
    dashDash.isPrefixOf (line.drop (dashBoundary b).length)

/-! ## Header block parsing

Modelled from the spec: the header-block collaborator is a line-oriented
`key: value` reader; keys are compared case-insensitively. -/

/-- Horizontal whitespace test on one byte. -/
def isHSpace (c : Char) : Bool := c = ' ' || c = '\t'

/-- Modelled from the spec: one header line's content splits at the first
colon; leading horizontal whitespace of the value is not significant. -/
def parseHeaderLine (content : List Char) : List Char × List Char :=
  (content.takeWhile fun c => decide (c ≠ ':'),
   ((content.dropWhile fun c => decide (c ≠ ':')).drop 1).dropWhile isHSpace)

/-- Case-insensitive equality of header names. -/
def lowerEq (a b : List Char) : Bool :=
  a.map Char.toLower == b.map Char.toLower

/-- Modelled from the spec: header lookup is case-insensitive; an absent key
yields the empty value rather than an error. -/
def headerGet (hs : List (List Char × List Char)) (k : List Char) : List Char :=
  match hs.find? fun h => lowerEq h.1 k with
  | some h => h.2
  | none => []

/-- Modelled from the spec: read header lines until the blank line that
terminates the header block; end of stream while the block is open is
`UnexpectedEndOfInput`; an overlong line is `SizeLimitExceeded`. -/
def readHeaderBlock : List (List Char × List Char) → List (List Char) →
    Except MErr (List (List Char × List Char) × List (List Char))
  | _, [] => .error .unexpectedEndOfInput
  | acc, l :: rest =>
    if maxLineLength < l.length then .error .sizeLimitExceeded
    else if (splitTerm l).2 = [] then .error .unexpectedEndOfInput
    else if (splitTerm l).1 = [] then .ok (acc.reverse, rest)
    else readHeaderBlock (parseHeaderLine (splitTerm l).1 :: acc) rest

/-! ## Body reading

Modelled from the spec (§4.2): stream body lines until a delimiter line; the
reader holds back the last-seen line terminator as a pending suffix; if the
following line is a delimiter the pending terminator is discarded (it belongs
to the delimiter framing), otherwise it is emitted before the new line's
content.  End of stream before any delimiter is `UnexpectedEndOfInput`. -/

/-- Modelled from the spec: fully read one part's body from the remaining
lines.  Returns the body bytes, whether the delimiter found was final, and
the lines remaining after the delimiter line. -/
def readBody (b : List Char) : List Char → List (List Char) →
    Except MErr (List Char × Bool × List (List Char))
  | _, [] => .error .unexpectedEndOfInput
  | pending, l :: rest =>
    if maxLineLength < l.length then .error .sizeLimitExceeded
    else if isBoundaryDelimiterLine b l then .ok ([], isFinalDelimiterLine b l, rest)
    else if (splitTerm l).2 = [] then .error .unexpectedEndOfInput
    else
      match readBody b (splitTerm l).2 rest with
      | .ok (bytes, fin, rest') => .ok (pending ++ (splitTerm l).1 ++ bytes, fin, rest')
      | .error e => .error e

/-! ## The multipart reader state machine -/

/-- Outcome of scanning the preamble. -/
inductive PreambleResult where
  | found (rest : List (List Char))
  | finished (sig : EndSignal)

/-- Modelled from the spec: in `PREAMBLE`, scan lines, discarding everything,
until a delimiter line that is not the final delimiter; a final delimiter or
exhaustion of the input yields no parts (`NoMoreParts`). -/
def skipPreamble (b : List Char) : List (List Char) → PreambleResult
  | [] => .finished .noMoreParts
  | l :: rest =>
    if maxLineLength < l.length then .finished (.err .sizeLimitExceeded)
    else if isBoundaryDelimiterLine b l then
      if isFinalDelimiterLine b l then .finished .noMoreParts
      else .found rest
    else skipPreamble b rest

/-- Modelled from the spec: after a non-final delimiter line has been
consumed, repeatedly parse a header block and a body; a final delimiter moves
to `TERMINAL` and any further request yields `NoMoreParts`; errors are
terminal.  `fuel` bounds the number of parts (any value above the number of
remaining lines is enough, since each part consumes at least one line). -/
def parsePartsAux (b : List Char) : Nat → List (List Char) → List Part × EndSignal
  | 0, _ => ([], .err .malformedInput)
  | fuel + 1, ls =>
    match readHeaderBlock [] ls with
    | .error e => ([], .err e)
    | .ok (hdrs, rest) =>
      match readBody b [] rest with
      | .error e => ([⟨hdrs, .error e⟩], .err e)
      | .ok (bytes, fin, rest') =>
        if fin then ([⟨hdrs, .ok bytes⟩], .noMoreParts)
        else
          let r := parsePartsAux b fuel rest'
          (⟨hdrs, .ok bytes⟩ :: r.1, r.2)

/-- Run the reader over a list of lines. -/
def parseFromLines (b : List Char) (ls : List (List Char)) : List Part × EndSignal :=
  match skipPreamble b ls with
  | .finished sig => ([], sig)
  | .found rest => parsePartsAux b (rest.length + 1) rest

/-- Modelled from the spec: the whole session over a byte stream: the list of
parts successively yielded by `next_part` (`NextPart`), each with its fully
read body, together with the signal every later call yields. -/
def parseMultipart (b : List Char) (input : List Char) : List Part × EndSignal :=
  parseFromLines b (splitLines input)

/-- Modelled from the spec: the outcome of the `n`-th call (0-based) to
`next_part`: one of the yielded parts while any remain, and afterwards the
terminal signal, repeated on every subsequent call. -/
def nextPartCall (b input : List Char) (n : Nat) : Part ⊕ EndSignal :=
  match (parseMultipart b input).1[n]? with
  | some p => .inl p
  | none => .inr (parseMultipart b input).2

/-! ## Content-Disposition accessors

Modelled from the spec: `form_name` / `file_name` come from the
`Content-Disposition` header's `name=` / `filename=` parameters;
disposition type and parameter names are case-insensitive, values optionally
quoted; absence yields the empty string. -/

/-- Lowercase a header token. -/
def toLowerList (s : List Char) : List Char := s.map Char.toLower

/-- Trim horizontal whitespace from both ends. -/
def trimHSpace (s : List Char) : List Char :=
  ((s.dropWhile isHSpace).reverse.dropWhile isHSpace).reverse

/-- Strip one pair of surrounding double quotes, if present. -/
def unquote (s : List Char) : List Char :=
  if 2 ≤ s.length ∧ s.head? = some '"' ∧ s.getLast? = some '"' then
    (s.drop 1).dropLast
  else s

/-- Modelled from the spec: split the `Content-Disposition` value into the
(lowercased, trimmed) disposition type and its `name=value` parameters with
lowercased names and unquoted values. -/
def parseContentDisposition (v : List Char) :
    List Char × List (List Char × List Char) :=
  match v.splitOn ';' with
  | [] => ([], [])
  | t :: ps =>
    (toLowerList (trimHSpace t),
     ps.map fun seg =>
       let seg := trimHSpace seg
       (toLowerList (trimHSpace (seg.takeWhile fun c => decide (c ≠ '='))),
        unquote ((seg.dropWhile fun c => decide (c ≠ '=')).drop 1)))

/-- First value of the named (lowercase) parameter, or empty. -/
def getParam (ps : List (List Char × List Char)) (name : List Char) : List Char :=
  match ps.find? fun p => p.1 == name with
  | some p => p.2
  | none => []

/-- Modelled from the spec: `form_name` (the test file's `FormName`): the
`name` parameter, but only for a `form-data` disposition. -/
def Part.FormName (p : Part) : List Char :=
  let d := parseContentDisposition (headerGet p.headers "Content-Disposition".toList)
  if d.1 = "form-data".toList then getParam d.2 "name".toList else []

/-- Modelled from the spec: `file_name` (the test file's `FileName`): the
`filename` parameter, regardless of disposition type. -/
def Part.FileName (p : Part) : List Char :=
  getParam (parseContentDisposition
    (headerGet p.headers "Content-Disposition".toList)).2 "filename".toList

/-! ## Writer-side model: constructing a well-formed multipart body -/

/-- A part as written: its header pairs and raw body bytes. -/
structure RawPart where
  headers : List (List Char × List Char)
  body : List Char

/-- The part the reader should recover for a written part. -/
def RawPart.toPart (p : RawPart) : Part := ⟨p.headers, .ok p.body⟩

/-- One wire header line. -/
def encodeHeaderLine (h : List Char × List Char) : List Char :=
  h.1 ++ [':', ' '] ++ h.2 ++ crlf

/-- The wire header block (without its terminating blank line). -/
def encodeHeaders (hs : List (List Char × List Char)) : List Char :=
  (hs.map encodeHeaderLine).flatten

/-- One part on the wire: its leading delimiter line, header block, blank
line, body, and the body's terminating line break (which belongs to the next
delimiter's framing). -/
def encodePart (b : List Char) (p : RawPart) : List Char :=
  dashBoundary b ++ crlf ++ encodeHeaders p.headers ++ crlf ++ p.body ++ crlf

/-- The final delimiter line. -/
def finalDelimiterLine (b : List Char) : List Char :=
  dashBoundary b ++ dashDash ++ crlf

/-- A whole multipart body: preamble, the parts in order, the final
delimiter, and an epilogue. -/
def encodeMultipart (b preamble : List Char) (parts : List RawPart)
    (epilogue : List Char) : List Char :=
  preamble ++ (parts.map (encodePart b)).flatten ++ finalDelimiterLine b ++ epilogue

/-! ## Well-formedness of written input -/

/-- A line acceptable inside a part body or the preamble: not a delimiter
line, and within the scanner's size bound. -/
def lineOkFor (b l : List Char) : Bool :=
  !isBoundaryDelimiterLine b l && decide (l.length ≤ maxLineLength)

/-- A well-formed boundary token: no line break inside it, and short enough
that its delimiter lines fit the line-length bound. -/
def WFBoundary (b : List Char) : Bool :=
  decide ('\n' ∉ b) && decide (b.length + 6 ≤ maxLineLength)

/-- A well-formed written header pair: nonempty colon-free key without line
breaks, value without line breaks and not starting in horizontal whitespace,
and a line fitting the size bound. -/
def WFHeaderPair (h : List Char × List Char) : Bool :=
  decide (h.1 ≠ []) && decide ('\n' ∉ h.1) && decide (':' ∉ h.1) &&
  decide ('\n' ∉ h.2) && Option.all (fun c => !isHSpace c) h.2.head? &&
  decide ((encodeHeaderLine h).length ≤ maxLineLength)

/-- A well-formed written body for boundary `b`: none of its lines (as framed
on the wire, i.e. of `body ++ crlf`) is a delimiter line or overlong. -/
def WFBody (b body : List Char) : Bool :=
  (splitLines (body ++ crlf)).all (lineOkFor b)

/-- A well-formed preamble: empty or ending in a line break, with no
delimiter-looking or overlong line. -/
def WFPreamble (b pre : List Char) : Bool :=
  (decide (pre = []) || decide (pre.getLast? = some '\n')) &&
  (splitLines pre).all (lineOkFor b)

/-- A well-formed written part. -/
def WFRawPart (b : List Char) (p : RawPart) : Bool :=
  p.headers.all WFHeaderPair && WFBody b p.body

/-- Header keys pairwise distinct up to case. -/
def DistinctKeysCI (hs : List (List Char × List Char)) : Prop :=
  hs.Pairwise fun h h' => lowerEq h.1 h'.1 = false

/-- The bytes a run of non-delimiter lines contributes to a body: every line
in full, except that the last line's terminator is held back (and discarded
when the following line is a delimiter). -/
def heldBack : List (List Char) → List Char
  | [] => []
  | [l] => (splitTerm l).1
  | l :: l' :: ls => l ++ heldBack (l' :: ls)

/-- The wire bytes that remain after the non-final delimiter line opening the
first of `parts` has been consumed (used to reason about the parts loop). -/
def encodeAfter (b ep : List Char) : List RawPart → List Char
  | [] => []
  | p :: ps =>
    encodeHeaders p.headers ++ crlf ++ p.body ++ crlf ++
      (match ps with
       | [] => finalDelimiterLine b ++ ep
       | _ :: _ => dashBoundary b ++ crlf ++ encodeAfter b ep ps)

/-! ## Incremental delivery model

Modelled from the spec: the scanner "must support sources that deliver data
in arbitrarily small increments (as few as one byte per underlying read)".
A source is a list of chunks; the scanner carries the partial line `buf`
across chunk boundaries. -/

/-- Feed one chunk into the incremental scanner: returns the new partial-line
buffer and the lines completed by this chunk. -/
def feedChunk : List Char → List Char → List Char × List (List Char)
  | buf, [] => (buf, [])
  | buf, c :: cs =>
    if c = '\n' then
      let r := feedChunk [] cs
      (r.1, (buf ++ ['\n']) :: r.2)
    else feedChunk (buf ++ [c]) cs

/-- Scan a whole chunked source into lines. -/
def scanChunks : List Char → List (List Char) → List (List Char)
  | buf, [] => if buf = [] then [] else [buf]
  | buf, ch :: rest =>
    let r := feedChunk buf ch
    r.2 ++ scanChunks r.1 rest

/-- Modelled from the spec: the whole session over a source that delivers its
bytes in the given chunks, assembling lines incrementally across chunk
boundaries. -/
def parseMultipartChunks (b : List Char) (chunks : List (List Char)) :
    List Part × EndSignal :=
  parseFromLines b (scanChunks [] chunks)

/-! ## Unbounded-source model

Modelled from the spec: an adversarial source may supply an unbounded run of
bytes with no line terminator; the Line Scanner must fail with
`SizeLimitExceeded` after a bounded number of bytes instead of buffering
without bound.  A source is a total function from read position to byte. -/

/-- Modelled from the spec: scan one line from an unbounded source, reading
byte by byte; `fuel` is the line-length bound.  Returns the scan result and
the position after the bytes consumed. -/
def scanLineStream (src : Nat → Char) : Nat → Nat → Except MErr (List Char) × Nat
  | 0, pos => (.error .sizeLimitExceeded, pos)
  | fuel + 1, pos =>
    if src pos = '\n' then (.ok ['\n'], pos + 1)
    else
      match scanLineStream src fuel (pos + 1) with
      | (.ok l, p) => (.ok (src pos :: l), p)
      | (.error e, p) => (.error e, p)

/-- Outcome of requesting the next part from an unbounded source. -/
inductive StreamOutcome where
  | partAt (pos : Nat)
  | noMore
  | failed (e : MErr)
deriving DecidableEq

/-- Modelled from the spec: `next_part` on a fresh reader scans preamble
lines (each bounded by `maxLineLength`) until a delimiter line; the second
component is the number of bytes consumed from the source. -/
def nextPartStream (b : List Char) (src : Nat → Char) :
    Nat → Nat → StreamOutcome × Nat
  | 0, pos => (.failed .malformedInput, pos)
  | fuel + 1, pos =>
    match scanLineStream src maxLineLength pos with
    | (.error e, p) => (.failed e, p)
    | (.ok line, p) =>
      if isBoundaryDelimiterLine b line then
        if isFinalDelimiterLine b line then (.noMore, p)
        else (.partAt p, p)
      else nextPartStream b src fuel p

/-- A part holding only a `Content-Disposition` header, as built by the name
accessor test. -/
def cdPart (v : List Char) : Part :=
  ⟨[("Content-Disposition".toList, v)], .ok []⟩

/-! ## Lemmas about `splitTerm` -/

theorem splitTerm_append_crlf (y : List Char) : splitTerm (y ++ crlf) = (y, crlf) := by
  have h2 : y ++ crlf = (y ++ ['\r']) ++ ['\n'] := by simp [crlf]
  rw [h2]
  simp only [splitTerm, List.getLast?_concat, List.dropLast_concat]
  simp [crlf]

theorem splitTerm_no_lf {l : List Char} (h : '\n' ∉ l) : splitTerm l = (l, []) := by
  have hne : l.getLast? ≠ some '\n' := fun hc => h (List.mem_of_mem_getLast? hc)
  simp [splitTerm, hne]

theorem splitTerm_append_lf {y : List Char} (h : y.getLast? ≠ some '\r') :
    splitTerm (y ++ ['\n']) = (y, ['\n']) := by
  simp only [splitTerm, List.getLast?_concat, List.dropLast_concat]
  simp [h]

theorem splitTerm_term_cases (l : List Char) :
    (splitTerm l).2 = [] ∨ (splitTerm l).2 = ['\n'] ∨ (splitTerm l).2 = crlf := by
  simp only [splitTerm]
  by_cases h1 : l.getLast? = some '\n' <;>
    by_cases h2 : l.dropLast.getLast? = some '\r' <;> simp [h1, h2, crlf]

theorem splitTerm_append_eq (l : List Char) :
    (splitTerm l).1 ++ (splitTerm l).2 = l := by
  simp only [splitTerm]
  by_cases h1 : l.getLast? = some '\n'
  · obtain ⟨y, rfl⟩ := List.getLast?_eq_some_iff.mp h1
    rw [List.dropLast_concat]
    by_cases h2 : y.getLast? = some '\r'
    · obtain ⟨z, rfl⟩ := List.getLast?_eq_some_iff.mp h2
      simp [List.getLast?_concat, List.dropLast_concat]
    · simp [List.getLast?_concat, h2]
  · simp [h1]

theorem splitTerm_term_ne {l : List Char} (h : l.getLast? = some '\n') :
    (splitTerm l).2 ≠ [] := by
  simp only [splitTerm, h]
  by_cases h2 : l.dropLast.getLast? = some '\r' <;> simp [h2]

/-! ## Lemmas about `splitLinesAux` -/

theorem splitLinesAux_nil (buf : List Char) :
    splitLinesAux buf [] = if buf = [] then [] else [buf] := rfl

theorem splitLinesAux_cons (buf : List Char) (c : Char) (cs : List Char) :
    splitLinesAux buf (c :: cs) =
      if c = '\n' then (buf ++ ['\n']) :: splitLinesAux [] cs
      else splitLinesAux (buf ++ [c]) cs := rfl

theorem splitLinesAux_ne_nil {s : List Char} (h : s ≠ []) (buf : List Char) :
    splitLinesAux buf s ≠ [] := by
  induction s generalizing buf with
  | nil => exact absurd rfl h
  | cons c cs ih =>
    rw [splitLinesAux_cons]
    by_cases hc : c = '\n'
    · simp [hc]
    · rw [if_neg hc]
      cases cs with
      | nil => rw [splitLinesAux_nil]; simp
      | cons d ds => exact ih (by simp) _

/-- Splitting off one `'\n'`-free line. -/
theorem splitLinesAux_line {y : List Char} (hy : '\n' ∉ y) :
    ∀ (buf Y : List Char),
      splitLinesAux buf (y ++ '\n' :: Y) = (buf ++ y ++ ['\n']) :: splitLinesAux [] Y := by
  induction y with
  | nil =>
    intro buf Y
    rw [List.nil_append, splitLinesAux_cons, if_pos rfl]
    simp
  | cons c cs ih =>
    intro buf Y
    have hc : c ≠ '\n' := fun h => hy (by simp [h])
    rw [List.cons_append, splitLinesAux_cons, if_neg hc,
      ih (fun h => hy (List.mem_cons_of_mem _ h)) (buf ++ [c]) Y]
    simp

/-- `splitLinesAux` distributes over a terminated left part. -/
theorem splitLinesAux_append {X : List Char} (hX : X.getLast? = some '\n') :
    ∀ (buf Y : List Char),
      splitLinesAux buf (X ++ Y) = splitLinesAux buf X ++ splitLinesAux [] Y := by
  induction X with
  | nil => simp at hX
  | cons c cs ih =>
    intro buf Y
    cases cs with
    | nil =>
      have hc : c = '\n' := by simpa using hX
      subst hc
      rw [List.cons_append, List.nil_append, splitLinesAux_cons, if_pos rfl,
        splitLinesAux_cons, if_pos rfl, splitLinesAux_nil, if_pos rfl]
      simp
    | cons d ds =>
      have hX' : (d :: ds).getLast? = some '\n' := by
        rwa [List.getLast?_cons_cons] at hX
      rw [List.cons_append, splitLinesAux_cons, splitLinesAux_cons]
      by_cases hc : c = '\n'
      · rw [if_pos hc, if_pos hc, ih hX' [] Y]
        simp
      · rw [if_neg hc, if_neg hc]
        exact ih hX' (buf ++ [c]) Y

/-- Every line of a terminated stream is terminated. -/
theorem splitLinesAux_terminated {s : List Char} (hs : s.getLast? = some '\n') :
    ∀ (buf : List Char), ∀ l ∈ splitLinesAux buf s, l.getLast? = some '\n' := by
  induction s with
  | nil => simp at hs
  | cons c cs ih =>
    intro buf l hl
    cases cs with
    | nil =>
      have hc : c = '\n' := by simpa using hs
      subst hc
      rw [splitLinesAux_cons, if_pos rfl, splitLinesAux_nil, if_pos rfl] at hl
      simp at hl
      subst hl
      simp
    | cons d ds =>
      have hs' : (d :: ds).getLast? = some '\n' := by
        rwa [List.getLast?_cons_cons] at hs
      rw [splitLinesAux_cons] at hl
      by_cases hc : c = '\n'
      · rw [if_pos hc] at hl
        rcases List.mem_cons.1 hl with h | h
        · subst h; simp
        · exact ih hs' [] l h
      · rw [if_neg hc] at hl
        exact ih hs' (buf ++ [c]) l hl

/-! ## Lemmas about `heldBack` -/

theorem heldBack_singleton (l : List Char) : heldBack [l] = (splitTerm l).1 := rfl

theorem heldBack_cons {ls : List (List Char)} (h : ls ≠ []) (l : List Char) :
    heldBack (l :: ls) = l ++ heldBack ls := by
  cases ls with
  | nil => exact absurd rfl h
  | cons l' ls' => rfl

/-- The held-back reassembly of the lines of `X ++ crlf` recovers `X`. -/
theorem heldBack_splitLinesAux :
    ∀ (X buf : List Char), heldBack (splitLinesAux buf (X ++ crlf)) = buf ++ X := by
  intro X
  induction X with
  | nil =>
    intro buf
    have h : ([] : List Char) ++ crlf = ['\r'] ++ '\n' :: [] := by simp [crlf]
    rw [h, splitLinesAux_line (by simp) buf [], splitLinesAux_nil, if_pos rfl,
      heldBack_singleton]
    have h2 : buf ++ ['\r'] ++ ['\n'] = buf ++ crlf := by simp [crlf]
    rw [h2, splitTerm_append_crlf]
    simp
  | cons c cs ih =>
    intro buf
    rw [List.cons_append, splitLinesAux_cons]
    by_cases hc : c = '\n'
    · rw [if_pos hc]
      have hne : splitLinesAux [] (cs ++ crlf) ≠ [] :=
        splitLinesAux_ne_nil (by simp [crlf]) []
      rw [heldBack_cons hne, ih []]
      simp [hc]
    · rw [if_neg hc, ih (buf ++ [c])]
      simp

/-! ## Lemmas about delimiter lines -/

theorem isPrefixOf_append_self : ∀ (a t : List Char), a.isPrefixOf (a ++ t) = true := by
  intro a
  induction a with
  | nil => intro t; simp [List.isPrefixOf]
  | cons c cs ih => intro t; simp [List.isPrefixOf, ih t]

theorem eq_append_of_isPrefixOf : ∀ {a l : List Char}, a.isPrefixOf l = true →
    ∃ t, a ++ t = l := by
  intro a
  induction a with
  | nil => intro l _; exact ⟨l, rfl⟩
  | cons c cs ih =>
    intro l h
    cases l with
    | nil => simp [List.isPrefixOf] at h
    | cons d ds =>
      simp only [List.isPrefixOf, Bool.and_eq_true, beq_iff_eq] at h
      obtain ⟨rfl, h2⟩ := h
      obtain ⟨t, rfl⟩ := ih h2
      exact ⟨t, rfl⟩

theorem stripDashDash_append (X : List Char) : stripDashDash (dashDash ++ X) = X := by
  have hp : dashDash.isPrefixOf (dashDash ++ X) = true :=
    isPrefixOf_append_self _ _
  simp [stripDashDash, hp, dashDash]

theorem delim_line_is_delim (b : List Char) :
    isBoundaryDelimiterLine b (dashBoundary b ++ crlf) = true := by
  have hp : (dashBoundary b).isPrefixOf (dashBoundary b ++ crlf) = true :=
    isPrefixOf_append_self _ _
  simp only [isBoundaryDelimiterLine, hp, List.drop_left, Bool.true_and]
  decide

theorem delim_line_not_final (b : List Char) :
    isFinalDelimiterLine b (dashBoundary b ++ crlf) = false := by
  simp only [isFinalDelimiterLine, List.drop_left]
  have h : dashDash.isPrefixOf crlf = false := by decide
  simp [h]

theorem finalDelimiterLine_eq (b : List Char) :
    finalDelimiterLine b = dashBoundary b ++ (dashDash ++ crlf) := by
  simp [finalDelimiterLine]

theorem final_line_is_delim (b : List Char) :
    isBoundaryDelimiterLine b (finalDelimiterLine b) = true := by
  rw [finalDelimiterLine_eq]
  have hp : (dashBoundary b).isPrefixOf (dashBoundary b ++ (dashDash ++ crlf)) = true :=
    isPrefixOf_append_self _ _
  simp only [isBoundaryDelimiterLine, hp, List.drop_left, Bool.true_and]
  rw [stripDashDash_append]
  decide

theorem final_line_is_final (b : List Char) :
    isFinalDelimiterLine b (finalDelimiterLine b) = true := by
  have h1 := final_line_is_delim b
  rw [finalDelimiterLine_eq] at h1 ⊢
  simp only [isFinalDelimiterLine, h1, List.drop_left, Bool.true_and]
  exact isPrefixOf_append_self _ _

theorem delim_line_length (b : List Char) :
    (dashBoundary b ++ crlf).length = b.length + 4 := by
  simp [dashBoundary, dashDash, crlf]

theorem final_line_length (b : List Char) :
    (finalDelimiterLine b).length = b.length + 6 := by
  simp [finalDelimiterLine, dashBoundary, dashDash, crlf]

/-- Unpack a well-formed boundary. -/
theorem WFBoundary_unpack {b : List Char} (h : WFBoundary b = true) :
    '\n' ∉ b ∧ b.length + 6 ≤ maxLineLength := by
  simpa [WFBoundary, Bool.and_eq_true, decide_eq_true_eq] using h

/-- Unpack a well-formed line condition. -/
theorem lineOkFor_unpack {b l : List Char} (h : lineOkFor b l = true) :
    isBoundaryDelimiterLine b l = false ∧ l.length ≤ maxLineLength := by
  simpa [lineOkFor, Bool.and_eq_true, Bool.not_eq_true', decide_eq_true_eq] using h

/-! ## Lemmas about header parsing -/

/-- Unpack a well-formed header pair. -/
theorem WFHeaderPair_unpack {h : List Char × List Char} (hw : WFHeaderPair h = true) :
    h.1 ≠ [] ∧ '\n' ∉ h.1 ∧ ':' ∉ h.1 ∧ '\n' ∉ h.2 ∧
      Option.all (fun c => !isHSpace c) h.2.head? = true ∧
      (encodeHeaderLine h).length ≤ maxLineLength := by
  simp only [WFHeaderPair, Bool.and_eq_true, decide_eq_true_eq] at hw
  tauto

theorem parseHeaderLine_encode {k v : List Char} (hk : ':' ∉ k)
    (hv : Option.all (fun c => !isHSpace c) v.head? = true) :
    parseHeaderLine (k ++ ':' :: ' ' :: v) = (k, v) := by
  have htake : ∀ (k' : List Char), ':' ∉ k' →
      ((k' ++ ':' :: ' ' :: v).takeWhile fun c => decide (c ≠ ':')) = k' ∧
      ((k' ++ ':' :: ' ' :: v).dropWhile fun c => decide (c ≠ ':')) = ':' :: ' ' :: v := by
    intro k' hk'
    induction k' with
    | nil => simp
    | cons c cs ih =>
      have hc : c ≠ ':' := fun h => hk' (by simp [h])
      obtain ⟨h1, h2⟩ := ih fun h => hk' (List.mem_cons_of_mem _ h)
      constructor
      · rw [List.cons_append, List.takeWhile_cons, if_pos (by simp [hc]), h1]
      · rw [List.cons_append, List.dropWhile_cons, if_pos (by simp [hc]), h2]
  obtain ⟨h1, h2⟩ := htake k hk
  simp only [parseHeaderLine, h1, h2]
  have hval : ((' ' :: v).dropWhile isHSpace) = v := by
    rw [List.dropWhile_cons, if_pos (by simp [isHSpace])]
    cases v with
    | nil => simp
    | cons c v' =>
      have : isHSpace c = false := by simpa [Option.all] using hv
      rw [List.dropWhile_cons, if_neg (by simp [this])]
  simp [hval]

theorem readHeaderBlock_nil (acc : List (List Char × List Char)) :
    readHeaderBlock acc [] = .error .unexpectedEndOfInput := rfl

theorem readHeaderBlock_cons (acc : List (List Char × List Char)) (l : List Char)
    (rest : List (List Char)) :
    readHeaderBlock acc (l :: rest) =
      if maxLineLength < l.length then .error .sizeLimitExceeded
      else if (splitTerm l).2 = [] then .error .unexpectedEndOfInput
      else if (splitTerm l).1 = [] then .ok (acc.reverse, rest)
      else readHeaderBlock (parseHeaderLine (splitTerm l).1 :: acc) rest := rfl

/-- The header block of well-formed written headers parses back exactly. -/
theorem readHeaderBlock_encode :
    ∀ (hs : List (List Char × List Char)) (acc : List (List Char × List Char))
      (rls : List (List Char)), (∀ h ∈ hs, WFHeaderPair h = true) →
      readHeaderBlock acc (hs.map encodeHeaderLine ++ crlf :: rls) =
        .ok (acc.reverse ++ hs, rls) := by
  intro hs
  induction hs with
  | nil =>
    intro acc rls _
    rw [List.map_nil, List.nil_append, readHeaderBlock_cons]
    have hsplit : splitTerm crlf = ([], crlf) := by decide
    rw [if_neg (by decide), hsplit]
    simp [crlf]
  | cons h t ih =>
    intro acc rls hw
    obtain ⟨hne, hlf1, hcol, hlf2, hhd, hlen⟩ := WFHeaderPair_unpack (hw h (by simp))
    have hline : encodeHeaderLine h = (h.1 ++ [':', ' '] ++ h.2) ++ crlf := by
      simp [encodeHeaderLine]
    rw [List.map_cons, List.cons_append, readHeaderBlock_cons]
    rw [hline] at hlen
    rw [hline, splitTerm_append_crlf]
    rw [if_neg (by omega)]
    rw [if_neg (by simp [crlf])]
    rw [if_neg (by simp [hne])]
    have hsh : h.1 ++ [':', ' '] ++ h.2 = h.1 ++ ':' :: ' ' :: h.2 := by simp
    rw [hsh, parseHeaderLine_encode hcol hhd,
      ih ((h.1, h.2) :: acc) rls fun x hx => hw x (by simp [hx])]
    simp

/-- The lines of an encoded header block. -/
theorem splitLinesAux_headers {hs : List (List Char × List Char)}
    (hw : ∀ h ∈ hs, WFHeaderPair h = true) (R : List Char) :
    splitLinesAux [] (encodeHeaders hs ++ R) =
      hs.map encodeHeaderLine ++ splitLinesAux [] R := by
  induction hs with
  | nil => simp [encodeHeaders]
  | cons h t ih =>
    obtain ⟨hne, hlf1, hcol, hlf2, hhd, hlen⟩ := WFHeaderPair_unpack (hw h (by simp))
    have hy : '\n' ∉ h.1 ++ [':', ' '] ++ h.2 ++ ['\r'] := by
      simp [hlf1, hlf2]
    have he : encodeHeaders (h :: t) ++ R =
        (h.1 ++ [':', ' '] ++ h.2 ++ ['\r']) ++ '\n' :: (encodeHeaders t ++ R) := by
      simp [encodeHeaders, encodeHeaderLine, crlf]
    rw [he, splitLinesAux_line hy [] _, ih fun x hx => hw x (by simp [hx])]
    simp [encodeHeaderLine, crlf]

/-! ## Lemmas about body reading -/

theorem readBody_nil (b pending : List Char) :
    readBody b pending [] = .error .unexpectedEndOfInput := rfl

theorem readBody_cons (b pending l : List Char) (rest : List (List Char)) :
    readBody b pending (l :: rest) =
      if maxLineLength < l.length then .error .sizeLimitExceeded
      else if isBoundaryDelimiterLine b l then .ok ([], isFinalDelimiterLine b l, rest)
      else if (splitTerm l).2 = [] then .error .unexpectedEndOfInput
      else
        match readBody b (splitTerm l).2 rest with
        | .ok (bytes, fin, rest') => .ok (pending ++ (splitTerm l).1 ++ bytes, fin, rest')
        | .error e => .error e := rfl

theorem readBody_delim {b dl : List Char} (pending : List Char)
    (rls : List (List Char)) (hd : isBoundaryDelimiterLine b dl = true)
    (hlen : dl.length ≤ maxLineLength) :
    readBody b pending (dl :: rls) = .ok ([], isFinalDelimiterLine b dl, rls) := by
  rw [readBody_cons, if_neg (by omega), if_pos hd]

/-- Reading a body through a run of ordinary terminated lines up to a
delimiter yields the held-back reassembly of those lines. -/
theorem readBody_lines {b : List Char} :
    ∀ (ls : List (List Char)) (pending dl : List Char) (rls : List (List Char)),
      ls ≠ [] →
      (∀ l ∈ ls, lineOkFor b l = true ∧ l.getLast? = some '\n') →
      isBoundaryDelimiterLine b dl = true → dl.length ≤ maxLineLength →
      readBody b pending (ls ++ dl :: rls) =
        .ok (pending ++ heldBack ls, isFinalDelimiterLine b dl, rls) := by
  intro ls
  induction ls with
  | nil => intro _ _ _ h; exact absurd rfl h
  | cons l t ih =>
    intro pending dl rls _ hall hdl hdlen
    obtain ⟨hok, hterm⟩ := hall l (by simp)
    obtain ⟨hnd, hlen⟩ := lineOkFor_unpack hok
    rw [List.cons_append, readBody_cons, if_neg (by omega), if_neg (by simp [hnd]),
      if_neg (splitTerm_term_ne hterm)]
    cases t with
    | nil =>
      rw [List.nil_append, readBody_delim _ rls hdl hdlen]
      rw [heldBack_singleton]
      simp
    | cons l' t' =>
      rw [ih (splitTerm l).2 dl rls (by simp)
        (fun x hx => hall x (List.mem_cons_of_mem _ hx)) hdl hdlen]
      rw [heldBack_cons (by simp) l]
      have hre : pending ++ (splitTerm l).1 ++ ((splitTerm l).2 ++ heldBack (l' :: t')) =
          pending ++ (l ++ heldBack (l' :: t')) := by
        rw [← List.append_assoc, List.append_assoc pending,
          splitTerm_append_eq l, List.append_assoc]
      simp [hre]

/-- A body whose remaining lines contain no delimiter fails with
`unexpectedEndOfInput`, never succeeding with a short body. -/
theorem readBody_noDelim {b : List Char} :
    ∀ (ls : List (List Char)) (pending : List Char),
      (∀ l ∈ ls, lineOkFor b l = true) →
      readBody b pending ls = .error .unexpectedEndOfInput := by
  intro ls
  induction ls with
  | nil => intro _ _; rfl
  | cons l t ih =>
    intro pending hall
    obtain ⟨hnd, hlen⟩ := lineOkFor_unpack (hall l (by simp))
    rw [readBody_cons, if_neg (by omega), if_neg (by simp [hnd])]
    by_cases ht : (splitTerm l).2 = []
    · rw [if_pos ht]
    · rw [if_neg ht, ih (splitTerm l).2 fun x hx => hall x (List.mem_cons_of_mem _ hx)]

/-! ## Lemmas about the preamble -/

theorem skipPreamble_nil (b : List Char) :
    skipPreamble b [] = .finished .noMoreParts := rfl

theorem skipPreamble_cons (b l : List Char) (rest : List (List Char)) :
    skipPreamble b (l :: rest) =
      if maxLineLength < l.length then .finished (.err .sizeLimitExceeded)
      else if isBoundaryDelimiterLine b l then
        if isFinalDelimiterLine b l then .finished .noMoreParts
        else .found rest
      else skipPreamble b rest := rfl

theorem skipPreamble_append {b : List Char} :
    ∀ (pls rest : List (List Char)), (∀ l ∈ pls, lineOkFor b l = true) →
      skipPreamble b (pls ++ rest) = skipPreamble b rest := by
  intro pls
  induction pls with
  | nil => intro rest _; rw [List.nil_append]
  | cons l t ih =>
    intro rest hall
    obtain ⟨hnd, hlen⟩ := lineOkFor_unpack (hall l (by simp))
    rw [List.cons_append, skipPreamble_cons, if_neg (by omega), if_neg (by simp [hnd])]
    exact ih rest fun x hx => hall x (List.mem_cons_of_mem _ hx)

theorem skipPreamble_found {b dl : List Char} (rest : List (List Char))
    (hd : isBoundaryDelimiterLine b dl = true) (hf : isFinalDelimiterLine b dl = false)
    (hlen : dl.length ≤ maxLineLength) :
    skipPreamble b (dl :: rest) = .found rest := by
  rw [skipPreamble_cons, if_neg (by omega), if_pos hd, if_neg (by simp [hf])]

theorem skipPreamble_noMore {b dl : List Char} (rest : List (List Char))
    (hd : isBoundaryDelimiterLine b dl = true) (hf : isFinalDelimiterLine b dl = true)
    (hlen : dl.length ≤ maxLineLength) :
    skipPreamble b (dl :: rest) = .finished .noMoreParts := by
  rw [skipPreamble_cons, if_neg (by omega), if_pos hd, if_pos hf]

/-! ## Decomposing the lines of an encoded multipart body -/

theorem getLast?_append_crlf (y : List Char) : (y ++ crlf).getLast? = some '\n' := by
  have h : y ++ crlf = (y ++ ['\r']) ++ ['\n'] := by simp [crlf]
  rw [h, List.getLast?_concat]

theorem splitLinesAux_crlf (X : List Char) :
    splitLinesAux [] (crlf ++ X) = crlf :: splitLinesAux [] X := by
  have h : crlf ++ X = ['\r'] ++ '\n' :: X := by simp [crlf]
  rw [h, splitLinesAux_line (by simp) [] X]
  simp [crlf]

theorem splitLinesAux_body (body Z : List Char) :
    splitLinesAux [] (body ++ (crlf ++ Z)) =
      splitLinesAux [] (body ++ crlf) ++ splitLinesAux [] Z := by
  rw [← List.append_assoc]
  exact splitLinesAux_append (getLast?_append_crlf body) [] Z

theorem splitLinesAux_delimLine {b : List Char} (hb : '\n' ∉ b) (X : List Char) :
    splitLinesAux [] (dashBoundary b ++ (crlf ++ X)) =
      (dashBoundary b ++ crlf) :: splitLinesAux [] X := by
  have h : dashBoundary b ++ (crlf ++ X) = (dashBoundary b ++ ['\r']) ++ '\n' :: X := by
    simp [crlf]
  have hy : '\n' ∉ dashBoundary b ++ ['\r'] := by
    simp [dashBoundary, dashDash, hb]
  rw [h, splitLinesAux_line hy [] X]
  simp [crlf]

theorem splitLinesAux_finalLine {b : List Char} (hb : '\n' ∉ b) (X : List Char) :
    splitLinesAux [] (finalDelimiterLine b ++ X) =
      finalDelimiterLine b :: splitLinesAux [] X := by
  have h : finalDelimiterLine b ++ X = (dashBoundary b ++ dashDash ++ ['\r']) ++ '\n' :: X := by
    simp [finalDelimiterLine, crlf]
  have hy : '\n' ∉ dashBoundary b ++ dashDash ++ ['\r'] := by
    simp [dashBoundary, dashDash, hb]
  rw [h, splitLinesAux_line hy [] X]
  simp [finalDelimiterLine, crlf]

theorem encodeAfter_single (b ep : List Char) (p : RawPart) :
    encodeAfter b ep [p] =
      encodeHeaders p.headers ++ crlf ++ p.body ++ crlf ++
        (finalDelimiterLine b ++ ep) := rfl

theorem encodeAfter_cons (b ep : List Char) (p q : RawPart) (qs : List RawPart) :
    encodeAfter b ep (p :: q :: qs) =
      encodeHeaders p.headers ++ crlf ++ p.body ++ crlf ++
        (dashBoundary b ++ crlf ++ encodeAfter b ep (q :: qs)) := rfl

/-- Unpack a well-formed written part. -/
theorem WFRawPart_unpack {b : List Char} {p : RawPart} (h : WFRawPart b p = true) :
    (∀ x ∈ p.headers, WFHeaderPair x = true) ∧
      ∀ l ∈ splitLines (p.body ++ crlf), lineOkFor b l = true := by
  simpa only [WFRawPart, Bool.and_eq_true, List.all_eq_true, WFBody] using h

/-- Unpack a well-formed preamble. -/
theorem WFPreamble_unpack {b pre : List Char} (h : WFPreamble b pre = true) :
    (pre = [] ∨ pre.getLast? = some '\n') ∧
      ∀ l ∈ splitLines pre, lineOkFor b l = true := by
  simpa only [WFPreamble, Bool.and_eq_true, Bool.or_eq_true, decide_eq_true_eq,
    List.all_eq_true] using h

theorem splitLines_encodeAfter_single {b : List Char} (hb : '\n' ∉ b) {p : RawPart}
    (hw : ∀ h ∈ p.headers, WFHeaderPair h = true) (ep : List Char) :
    splitLines (encodeAfter b ep [p]) =
      p.headers.map encodeHeaderLine ++ crlf ::
        (splitLines (p.body ++ crlf) ++ finalDelimiterLine b :: splitLines ep) := by
  rw [encodeAfter_single]
  simp only [splitLines, List.append_assoc]
  rw [splitLinesAux_headers hw, splitLinesAux_crlf, splitLinesAux_body,
    splitLinesAux_finalLine hb]

theorem splitLines_encodeAfter_cons {b : List Char} (hb : '\n' ∉ b) {p : RawPart}
    (hw : ∀ h ∈ p.headers, WFHeaderPair h = true) (ep : List Char) (q : RawPart)
    (qs : List RawPart) :
    splitLines (encodeAfter b ep (p :: q :: qs)) =
      p.headers.map encodeHeaderLine ++ crlf ::
        (splitLines (p.body ++ crlf) ++
          (dashBoundary b ++ crlf) :: splitLines (encodeAfter b ep (q :: qs))) := by
  rw [encodeAfter_cons]
  simp only [splitLines, List.append_assoc]
  rw [splitLinesAux_headers hw, splitLinesAux_crlf, splitLinesAux_body,
    splitLinesAux_delimLine hb]

/-- Flattening the encoded parts exposes the leading delimiter line. -/
theorem encode_flatten_cons (b ep : List Char) :
    ∀ (ps : List RawPart) (p : RawPart),
      ((p :: ps).map (encodePart b)).flatten ++ (finalDelimiterLine b ++ ep) =
        dashBoundary b ++ (crlf ++ encodeAfter b ep (p :: ps)) := by
  intro ps
  induction ps with
  | nil =>
    intro p
    simp [encodePart, encodeAfter_single, List.append_assoc]
  | cons q qs ih =>
    intro p
    rw [List.map_cons, List.flatten_cons, List.append_assoc, ih q, encodeAfter_cons]
    simp [encodePart, List.append_assoc]

/-! ## The parts loop on encoded input -/

theorem parsePartsAux_zero (b : List Char) (ls : List (List Char)) :
    parsePartsAux b 0 ls = ([], .err .malformedInput) := rfl

theorem parsePartsAux_succ (b : List Char) (fuel : Nat) (ls : List (List Char)) :
    parsePartsAux b (fuel + 1) ls =
      match readHeaderBlock [] ls with
      | .error e => ([], .err e)
      | .ok (hdrs, rest) =>
        match readBody b [] rest with
        | .error e => ([⟨hdrs, .error e⟩], .err e)
        | .ok (bytes, fin, rest') =>
          if fin then ([⟨hdrs, .ok bytes⟩], .noMoreParts)
          else
            let r := parsePartsAux b fuel rest'
            (⟨hdrs, .ok bytes⟩ :: r.1, r.2) := rfl

theorem parsePartsAux_step {b : List Char} {fuel : Nat} {ls rest rest' : List (List Char)}
    {hdrs : List (List Char × List Char)} {bytes : List Char} {fin : Bool}
    (h1 : readHeaderBlock [] ls = .ok (hdrs, rest))
    (h2 : readBody b [] rest = .ok (bytes, fin, rest')) :
    parsePartsAux b (fuel + 1) ls =
      if fin then ([⟨hdrs, .ok bytes⟩], .noMoreParts)
      else (⟨hdrs, .ok bytes⟩ :: (parsePartsAux b fuel rest').1,
        (parsePartsAux b fuel rest').2) := by
  have e1 : parsePartsAux b (fuel + 1) ls =
      match readBody b [] rest with
      | .error e => ([⟨hdrs, .error e⟩], .err e)
      | .ok (bytes, fin, rest') =>
        if fin then ([⟨hdrs, .ok bytes⟩], .noMoreParts)
        else
          let r := parsePartsAux b fuel rest'
          (⟨hdrs, .ok bytes⟩ :: r.1, r.2) := by
    rw [parsePartsAux_succ, h1]
  rw [e1, h2]

theorem parsePartsAux_step_err {b : List Char} {fuel : Nat} {ls rest : List (List Char)}
    {hdrs : List (List Char × List Char)} {e : MErr}
    (h1 : readHeaderBlock [] ls = .ok (hdrs, rest))
    (h2 : readBody b [] rest = .error e) :
    parsePartsAux b (fuel + 1) ls = ([⟨hdrs, .error e⟩], .err e) := by
  have e1 : parsePartsAux b (fuel + 1) ls =
      match readBody b [] rest with
      | .error e => ([⟨hdrs, .error e⟩], .err e)
      | .ok (bytes, fin, rest') =>
        if fin then ([⟨hdrs, .ok bytes⟩], .noMoreParts)
        else
          let r := parsePartsAux b fuel rest'
          (⟨hdrs, .ok bytes⟩ :: r.1, r.2) := by
    rw [parsePartsAux_succ, h1]
  rw [e1, h2]

theorem parsePartsAux_encode {b : List Char} (hb : WFBoundary b = true) :
    ∀ (parts : List RawPart) (fuel : Nat) (ep : List Char),
      parts ≠ [] → (∀ p ∈ parts, WFRawPart b p = true) → parts.length ≤ fuel →
      parsePartsAux b fuel (splitLines (encodeAfter b ep parts)) =
        (parts.map RawPart.toPart, .noMoreParts) := by
  obtain ⟨hblf, hblen⟩ := WFBoundary_unpack hb
  intro parts
  induction parts with
  | nil => intro _ _ h; exact absurd rfl h
  | cons p ps ih =>
    intro fuel ep _ hwf hfuel
    obtain ⟨hph, hpb⟩ := WFRawPart_unpack (hwf p (by simp))
    cases fuel with
    | zero => simp at hfuel
    | succ f =>
      have hbne : p.body ++ crlf ≠ [] := by simp [crlf]
      have hlne : splitLines (p.body ++ crlf) ≠ [] := splitLinesAux_ne_nil hbne []
      have hlines : ∀ l ∈ splitLines (p.body ++ crlf),
          lineOkFor b l = true ∧ l.getLast? = some '\n' := fun l hl =>
        ⟨hpb l hl, splitLinesAux_terminated (getLast?_append_crlf p.body) [] l hl⟩
      have hheld : heldBack (splitLines (p.body ++ crlf)) = p.body :=
        heldBack_splitLinesAux p.body []
      cases ps with
      | nil =>
        have hfl : (finalDelimiterLine b).length ≤ maxLineLength := by
          rw [final_line_length]; omega
        have h1 := readHeaderBlock_encode p.headers []
          (splitLines (p.body ++ crlf) ++ finalDelimiterLine b :: splitLines ep) hph
        rw [List.reverse_nil, List.nil_append] at h1
        have h2 := readBody_lines (splitLines (p.body ++ crlf)) []
          (finalDelimiterLine b) (splitLines ep) hlne hlines
          (final_line_is_delim b) hfl
        rw [hheld, final_line_is_final, List.nil_append] at h2
        rw [splitLines_encodeAfter_single hblf hph ep, parsePartsAux_step h1 h2]
        simp [RawPart.toPart]
      | cons q qs =>
        have hdl : (dashBoundary b ++ crlf).length ≤ maxLineLength := by
          rw [delim_line_length]; omega
        have h1 := readHeaderBlock_encode p.headers []
          (splitLines (p.body ++ crlf) ++
            (dashBoundary b ++ crlf) :: splitLines (encodeAfter b ep (q :: qs))) hph
        rw [List.reverse_nil, List.nil_append] at h1
        have h2 := readBody_lines (splitLines (p.body ++ crlf)) []
          (dashBoundary b ++ crlf) (splitLines (encodeAfter b ep (q :: qs))) hlne hlines
          (delim_line_is_delim b) hdl
        rw [hheld, delim_line_not_final, List.nil_append] at h2
        rw [splitLines_encodeAfter_cons hblf hph ep q qs, parsePartsAux_step h1 h2]
        have hrec := ih f ep (by simp) (fun x hx => hwf x (List.mem_cons_of_mem _ hx))
          (by simpa using Nat.le_of_succ_le_succ hfuel)
        rw [if_neg (by simp)]
        rw [hrec]
        simp [RawPart.toPart]

/-- Each encoded part occupies at least one line. -/
theorem length_le_splitLines_encodeAfter {b : List Char} (hb : WFBoundary b = true) :
    ∀ (parts : List RawPart) (ep : List Char), parts ≠ [] →
      (∀ p ∈ parts, WFRawPart b p = true) →
      parts.length ≤ (splitLines (encodeAfter b ep parts)).length := by
  obtain ⟨hblf, _⟩ := WFBoundary_unpack hb
  intro parts
  induction parts with
  | nil => intro _ h; exact absurd rfl h
  | cons p ps ih =>
    intro ep _ hwf
    obtain ⟨hph, _⟩ := WFRawPart_unpack (hwf p (by simp))
    cases ps with
    | nil =>
      rw [splitLines_encodeAfter_single hblf hph ep]
      simp only [List.length_cons, List.length_append, List.length_nil]
      omega
    | cons q qs =>
      rw [splitLines_encodeAfter_cons hblf hph ep q qs]
      have hrec := ih ep (by simp) fun x hx => hwf x (List.mem_cons_of_mem _ hx)
      simp only [List.length_cons, List.length_append, List.length_nil] at hrec ⊢
      omega

/-- The central roundtrip: a well-formed encoded multipart body parses back to
exactly its written parts, then `NoMoreParts`. -/
theorem parse_encode {b pre ep : List Char} {parts : List RawPart}
    (hb : WFBoundary b = true) (hpre : WFPreamble b pre = true)
    (hwf : ∀ p ∈ parts, WFRawPart b p = true) :
    parseMultipart b (encodeMultipart b pre parts ep) =
      (parts.map RawPart.toPart, .noMoreParts) := by
  obtain ⟨hblf, hblen⟩ := WFBoundary_unpack hb
  obtain ⟨hpre1, hpre2⟩ := WFPreamble_unpack hpre
  have hsplit : ∀ Z : List Char, splitLines (pre ++ Z) = splitLines pre ++ splitLines Z := by
    intro Z
    rcases hpre1 with h | h
    · rw [h]; simp [splitLines, splitLinesAux_nil]
    · exact splitLinesAux_append h [] Z
  have hfl : (finalDelimiterLine b).length ≤ maxLineLength := by
    rw [final_line_length]; omega
  simp only [parseMultipart, encodeMultipart, List.append_assoc]
  cases parts with
  | nil =>
    rw [List.map_nil, List.flatten_nil, List.nil_append, hsplit, parseFromLines]
    simp only [splitLines] at *
    rw [splitLinesAux_finalLine hblf ep]
    rw [skipPreamble_append _ _ hpre2,
      skipPreamble_noMore _ (final_line_is_delim b) (final_line_is_final b) hfl]
    simp
  | cons p ps =>
    rw [encode_flatten_cons b ep ps p, hsplit, parseFromLines]
    simp only [splitLines] at *
    rw [splitLinesAux_delimLine hblf]
    have hdl : (dashBoundary b ++ crlf).length ≤ maxLineLength := by
      rw [delim_line_length]; omega
    rw [skipPreamble_append _ _ hpre2,
      skipPreamble_found _ (delim_line_is_delim b) (delim_line_not_final b) hdl]
    have hlen := length_le_splitLines_encodeAfter hb (p :: ps) ep (by simp) hwf
    simp only [splitLines] at hlen
    exact parsePartsAux_encode hb (p :: ps) _ ep (by simp) hwf (by omega)

/-! ## The incremental (chunked) scanner agrees with the one-shot scanner -/

theorem feedChunk_nil (buf : List Char) : feedChunk buf [] = (buf, []) := rfl

theorem feedChunk_cons (buf : List Char) (c : Char) (cs : List Char) :
    feedChunk buf (c :: cs) =
      if c = '\n' then
        ((feedChunk [] cs).1, (buf ++ ['\n']) :: (feedChunk [] cs).2)
      else feedChunk (buf ++ [c]) cs := rfl

theorem splitLinesAux_feedChunk :
    ∀ (ch buf cont : List Char),
      splitLinesAux buf (ch ++ cont) =
        (feedChunk buf ch).2 ++ splitLinesAux (feedChunk buf ch).1 cont := by
  intro ch
  induction ch with
  | nil =>
    intro buf cont
    rw [List.nil_append, feedChunk_nil]
    simp
  | cons c cs ih =>
    intro buf cont
    rw [List.cons_append, splitLinesAux_cons, feedChunk_cons]
    by_cases hc : c = '\n'
    · rw [if_pos hc, if_pos hc, ih [] cont]
      simp
    · rw [if_neg hc, if_neg hc]
      exact ih (buf ++ [c]) cont

theorem scanChunks_nil (buf : List Char) :
    scanChunks buf [] = if buf = [] then [] else [buf] := rfl

theorem scanChunks_cons (buf ch : List Char) (rest : List (List Char)) :
    scanChunks buf (ch :: rest) =
      (feedChunk buf ch).2 ++ scanChunks (feedChunk buf ch).1 rest := rfl

/-- Incrementally scanned lines agree with one-shot splitting of the
concatenated bytes, for every chunking. -/
theorem scanChunks_flatten :
    ∀ (chunks : List (List Char)) (buf : List Char),
      scanChunks buf chunks = splitLinesAux buf chunks.flatten := by
  intro chunks
  induction chunks with
  | nil => intro buf; rw [scanChunks_nil, List.flatten_nil, splitLinesAux_nil]
  | cons ch rest ih =>
    intro buf
    rw [scanChunks_cons, List.flatten_cons, splitLinesAux_feedChunk ch buf, ih]

/-- The chunked session equals the one-shot session on the same bytes. -/
theorem parseMultipartChunks_eq (b : List Char) (chunks : List (List Char)) :
    parseMultipartChunks b chunks = parseMultipart b chunks.flatten := by
  rw [parseMultipartChunks, parseMultipart, splitLines, scanChunks_flatten]

/-! ## The unbounded-source scanner -/

theorem scanLineStream_zero (src : Nat → Char) (pos : Nat) :
    scanLineStream src 0 pos = (.error .sizeLimitExceeded, pos) := rfl

theorem scanLineStream_succ (src : Nat → Char) (fuel pos : Nat) :
    scanLineStream src (fuel + 1) pos =
      if src pos = '\n' then (.ok ['\n'], pos + 1)
      else
        match scanLineStream src fuel (pos + 1) with
        | (.ok l, p) => (.ok (src pos :: l), p)
        | (.error e, p) => (.error e, p) := rfl

/-- On a source with no line terminator, the scanner consumes exactly its
fuel and fails with the size-limit error. -/
theorem scanLineStream_noLF {src : Nat → Char} (h : ∀ i, src i ≠ '\n') :
    ∀ (fuel pos : Nat),
      scanLineStream src fuel pos = (.error .sizeLimitExceeded, pos + fuel) := by
  intro fuel
  induction fuel with
  | zero => intro pos; rw [scanLineStream_zero, Nat.add_zero]
  | succ f ih =>
    intro pos
    rw [scanLineStream_succ, if_neg (h pos), ih (pos + 1)]
    have harith : pos + 1 + f = pos + (f + 1) := by omega
    rw [harith]

theorem nextPartStream_succ (b : List Char) (src : Nat → Char) (fuel pos : Nat) :
    nextPartStream b src (fuel + 1) pos =
      match scanLineStream src maxLineLength pos with
      | (.error e, p) => (.failed e, p)
      | (.ok line, p) =>
        if isBoundaryDelimiterLine b line then
          if isFinalDelimiterLine b line then (.noMore, p)
          else (.partAt p, p)
        else nextPartStream b src fuel p := rfl

theorem nextPartStream_noLF {b : List Char} {src : Nat → Char}
    (h : ∀ i, src i ≠ '\n') {fuel : Nat} (hf : 0 < fuel) (pos : Nat) :
    nextPartStream b src fuel pos = (.failed .sizeLimitExceeded, pos + maxLineLength) := by
  cases fuel with
  | zero => omega
  | succ f => rw [nextPartStream_succ, scanLineStream_noLF h maxLineLength pos]

/-! ## Header lookup on distinct keys -/

theorem lowerEq_refl (a : List Char) : lowerEq a a = true := by simp [lowerEq]

theorem headerGet_distinct :
    ∀ (hs : List (List Char × List Char)), DistinctKeysCI hs →
      ∀ kv ∈ hs, headerGet hs kv.1 = kv.2 := by
  intro hs
  induction hs with
  | nil => intro _ kv h; simp at h
  | cons h t ih =>
    intro hd kv hkv
    simp only [DistinctKeysCI, List.pairwise_cons] at hd
    rcases List.mem_cons.1 hkv with rfl | hm
    · simp only [headerGet]
      rw [@List.find?_cons_of_pos _ (fun x => lowerEq x.1 kv.1) kv t (lowerEq_refl kv.1)]
    · have hne : lowerEq h.1 kv.1 = false := hd.1 kv hm
      have hrec := ih hd.2 kv hm
      simp only [headerGet] at hrec ⊢
      rw [@List.find?_cons_of_neg _ (fun x => lowerEq x.1 kv.1) h t (by simp [hne])]
      exact hrec

/-! ## Characterizing delimiter lines -/

theorem onlyHW_iff (s : List Char) :
    onlyHorizontalWhitespace s = true ↔ ∀ c ∈ s, c = ' ' ∨ c = '\t' := by
  simp [onlyHorizontalWhitespace, List.all_eq_true]

theorem head_of_dashDash_isPrefixOf {l : List Char} (h : dashDash.isPrefixOf l = true) :
    l.head? = some '-' := by
  obtain ⟨t, ht⟩ := eq_append_of_isPrefixOf h
  rw [← ht]
  simp [dashDash]

theorem hspace_getLast_ne_cr {ws : List Char} (hws : ∀ c ∈ ws, c = ' ' ∨ c = '\t') :
    ws.getLast? ≠ some '\r' := by
  intro hc
  rcases hws '\r' (List.mem_of_mem_getLast? hc) with h | h <;> simp at h

theorem splitTerm_ws_term {ws term : List Char} (hws : ∀ c ∈ ws, c = ' ' ∨ c = '\t')
    (hterm : term = ['\n'] ∨ term = crlf) :
    splitTerm (ws ++ term) = (ws, term) := by
  rcases hterm with rfl | rfl
  · exact splitTerm_append_lf (hspace_getLast_ne_cr hws)
  · exact splitTerm_append_crlf ws

theorem dashDash_not_isPrefixOf_ws_term {ws term : List Char}
    (hws : ∀ c ∈ ws, c = ' ' ∨ c = '\t') (hterm : term = ['\n'] ∨ term = crlf) :
    dashDash.isPrefixOf (ws ++ term) = false := by
  cases hh : dashDash.isPrefixOf (ws ++ term) with
  | false => rfl
  | true =>
    exfalso
    have hhead := head_of_dashDash_isPrefixOf hh
    cases ws with
    | nil => rcases hterm with rfl | rfl <;> simp [crlf] at hhead
    | cons c cs =>
      have hc : c = '-' := by simpa using hhead
      rcases hws c (by simp) with h | h <;> rw [hc] at h <;> exact absurd h (by decide)

theorem stripDashDash_no {s : List Char} (h : dashDash.isPrefixOf s = false) :
    stripDashDash s = s := by
  simp [stripDashDash, h]

theorem heldBack_splitLines (X : List Char) :
    heldBack (splitLines (X ++ crlf)) = X := by
  simpa [splitLines] using heldBack_splitLinesAux X []

/-! ## Claims -/

/-- **C3.** A line is a boundary delimiter line if and only if it is the
exact bytes `--` ++ boundary (byte-exact, case-sensitive), optionally
followed immediately by a second `--`, then only horizontal whitespace
(spaces/tabs) before the line terminator; any other trailing content makes
the line ordinary content, not a delimiter. -/
theorem isBoundaryDelimiterLine_characterization (b line : List Char) :
    isBoundaryDelimiterLine b line = true ↔
      ∃ (fin : Bool) (ws term : List Char),
        (∀ c ∈ ws, c = ' ' ∨ c = '\t') ∧ (term = ['\n'] ∨ term = crlf) ∧
        line = dashBoundary b ++ ((if fin then dashDash else []) ++ (ws ++ term)) := by
  constructor
  · intro h
    simp only [isBoundaryDelimiterLine, Bool.and_eq_true] at h
    obtain ⟨hp, hr⟩ := h
    obtain ⟨rest, hrest⟩ := eq_append_of_isPrefixOf hp
    have hdrop : line.drop (dashBoundary b).length = rest := by
      rw [← hrest, List.drop_left]
    rw [hdrop] at hr
    obtain ⟨hws, hne⟩ := hr
    have hne' : (splitTerm (stripDashDash rest)).2 ≠ [] := by
      simpa [List.isEmpty_iff] using hne
    have hterm : (splitTerm (stripDashDash rest)).2 = ['\n'] ∨
        (splitTerm (stripDashDash rest)).2 = crlf := by
      rcases splitTerm_term_cases (stripDashDash rest) with h | h | h
      · exact absurd h hne'
      · exact Or.inl h
      · exact Or.inr h
    cases hdd : dashDash.isPrefixOf rest with
    | false =>
      refine ⟨false, (splitTerm (stripDashDash rest)).1,
        (splitTerm (stripDashDash rest)).2, (onlyHW_iff _).mp hws, hterm, ?_⟩
      rw [if_neg (by simp), List.nil_append, splitTerm_append_eq,
        stripDashDash_no hdd, hrest]
    | true =>
      obtain ⟨rest2, hrest2⟩ := eq_append_of_isPrefixOf hdd
      have hstrip : stripDashDash rest = rest2 := by
        rw [← hrest2, stripDashDash_append]
      refine ⟨true, (splitTerm (stripDashDash rest)).1,
        (splitTerm (stripDashDash rest)).2, (onlyHW_iff _).mp hws, hterm, ?_⟩
      rw [if_pos rfl, splitTerm_append_eq, hstrip, hrest2, hrest]
  · rintro ⟨fin, ws, term, hws, hterm, rfl⟩
    have hsp : splitTerm (ws ++ term) = (ws, term) := splitTerm_ws_term hws hterm
    have htne : term ≠ [] := by rcases hterm with rfl | rfl <;> simp [crlf]
    have hp : (dashBoundary b).isPrefixOf
        (dashBoundary b ++ ((if fin then dashDash else []) ++ (ws ++ term))) = true :=
      isPrefixOf_append_self _ _
    simp only [isBoundaryDelimiterLine, hp, List.drop_left, Bool.true_and]
    cases fin
    · rw [if_neg (by simp), List.nil_append,
        stripDashDash_no (dashDash_not_isPrefixOf_ws_term hws hterm), hsp]
      simp [(onlyHW_iff ws).mpr hws, List.isEmpty_iff, htne]
    · rw [if_pos rfl, stripDashDash_append, hsp]
      simp [(onlyHW_iff ws).mpr hws, List.isEmpty_iff, htne]

/-- **C2.** The bytes returned for a part body are exactly the bytes strictly
between the header-block terminator and the line terminator immediately
preceding the next delimiter line: terminators inside the content (LF or
CRLF) are preserved verbatim, and only the single terminator immediately
before the delimiter line is excluded from the body. -/
theorem body_excludes_delimiter_terminator {b body dl : List Char}
    {rls : List (List Char)}
    (hbody : WFBody b body = true) (hd : isBoundaryDelimiterLine b dl = true)
    (hlen : dl.length ≤ maxLineLength) :
    readBody b [] (splitLines (body ++ crlf) ++ dl :: rls) =
      .ok (body, isFinalDelimiterLine b dl, rls) := by
  have hpb : ∀ l ∈ splitLines (body ++ crlf), lineOkFor b l = true := by
    simpa only [WFBody, List.all_eq_true] using hbody
  have hlne : splitLines (body ++ crlf) ≠ [] :=
    splitLinesAux_ne_nil (by simp [crlf]) []
  have hlines : ∀ l ∈ splitLines (body ++ crlf),
      lineOkFor b l = true ∧ l.getLast? = some '\n' := fun l hl =>
    ⟨hpb l hl, splitLinesAux_terminated (getLast?_append_crlf body) [] l hl⟩
  rw [readBody_lines _ [] _ _ hlne hlines hd hlen, heldBack_splitLines, List.nil_append]

/-- Witness for C2 at the test file's part 3: the body keeps its internal
CRLFs and exactly one trailing CRLF; the CRLF before the delimiter is not
body content. -/
theorem body_excludes_delimiter_terminator_witness :
    (WFBody "MyBoundary".toList
        "Line 1\r\nLine 2\r\nLine 3 ends in a newline, but just one.\r\n".toList = true ∧
     isBoundaryDelimiterLine "MyBoundary".toList "--MyBoundary\r\n".toList = true ∧
     ("--MyBoundary\r\n".toList).length ≤ maxLineLength) ∧
    readBody "MyBoundary".toList []
        (splitLines
          ("Line 1\r\nLine 2\r\nLine 3 ends in a newline, but just one.\r\n".toList ++ crlf) ++
          "--MyBoundary\r\n".toList :: []) =
      .ok ("Line 1\r\nLine 2\r\nLine 3 ends in a newline, but just one.\r\n".toList,
        isFinalDelimiterLine "MyBoundary".toList "--MyBoundary\r\n".toList, []) :=
  ⟨⟨by decide, by decide, by decide⟩,
    body_excludes_delimiter_terminator (by decide) (by decide) (by decide)⟩

/-- **C10.** A carriage-return byte that is not part of a CRLF pair is
ordinary body content, not a line terminator: a body containing no LF at all
(so every CR in it is bare, including a trailing CR immediately before the
delimiter's CRLF) is recovered byte-for-byte. -/
theorem bare_cr_preserved {b body : List Char} {hdrs : List (List Char × List Char)}
    (hb : WFBoundary b = true) (hlf : '\n' ∉ body)
    (hnd : isBoundaryDelimiterLine b (body ++ crlf) = false)
    (hlen : body.length + 2 ≤ maxLineLength)
    (hh : ∀ h ∈ hdrs, WFHeaderPair h = true) :
    parseMultipart b (encodeMultipart b [] [⟨hdrs, body⟩] []) =
      ([⟨hdrs, .ok body⟩], .noMoreParts) := by
  have hone : splitLines (body ++ crlf) = [body ++ crlf] := by
    have h : body ++ crlf = (body ++ ['\r']) ++ '\n' :: ([] : List Char) := by
      simp [crlf]
    rw [splitLines, h, splitLinesAux_line (by simp [hlf]) [] [], splitLinesAux_nil,
      if_pos rfl]
    simp [crlf]
  have hwf : ∀ p ∈ [(⟨hdrs, body⟩ : RawPart)], WFRawPart b p = true := by
    intro p hp
    rw [List.mem_singleton] at hp
    subst hp
    simp only [WFRawPart, Bool.and_eq_true]
    refine ⟨by simpa [List.all_eq_true] using hh, ?_⟩
    rw [WFBody, hone]
    simp only [List.all_cons, List.all_nil, Bool.and_true, lineOkFor, hnd,
      Bool.not_false, Bool.true_and, decide_eq_true_eq]
    simp [crlf]
    omega
  have hpre : WFPreamble b [] = true := by
    simp [WFPreamble, splitLines, splitLinesAux_nil]
  have h := @parse_encode b [] [] [⟨hdrs, body⟩] hb hpre hwf
  simpa [RawPart.toPart] using h

/-- Witness for C10 on the test file's `"Foo\rBar\r"` case: both bare CRs,
including the trailing one immediately before the delimiter's CRLF, are
preserved byte-for-byte. -/
theorem bare_cr_preserved_witness :
    (WFBoundary "BOUNDARY".toList = true ∧
     '\n' ∉ "Foo\rBar\r".toList ∧
     isBoundaryDelimiterLine "BOUNDARY".toList ("Foo\rBar\r".toList ++ crlf) = false ∧
     ("Foo\rBar\r".toList).length + 2 ≤ maxLineLength ∧
     (∀ h ∈ [("Content-Disposition".toList,
        "form-data; name=\"value\"".toList)], WFHeaderPair h = true)) ∧
    parseMultipart "BOUNDARY".toList
        (encodeMultipart "BOUNDARY".toList []
          [⟨[("Content-Disposition".toList, "form-data; name=\"value\"".toList)],
            "Foo\rBar\r".toList⟩] []) =
      ([⟨[("Content-Disposition".toList, "form-data; name=\"value\"".toList)],
        .ok "Foo\rBar\r".toList⟩], .noMoreParts) :=
  ⟨⟨by decide, by decide, by decide, by decide, by decide⟩,
    bare_cr_preserved (by decide) (by decide) (by decide) (by decide) (by decide)⟩

/-- Consuming the preamble and the opening delimiter line of the first part:
the session continues as the parts loop on the remaining bytes. -/
theorem parse_front {b pre Z : List Char}
    (hb : WFBoundary b = true) (hpre : WFPreamble b pre = true) :
    parseMultipart b (pre ++ (dashBoundary b ++ (crlf ++ Z))) =
      parsePartsAux b ((splitLines Z).length + 1) (splitLines Z) := by
  obtain ⟨hblf, hblen⟩ := WFBoundary_unpack hb
  obtain ⟨hpre1, hpre2⟩ := WFPreamble_unpack hpre
  have hsplit : splitLines (pre ++ (dashBoundary b ++ (crlf ++ Z))) =
      splitLines pre ++ splitLines (dashBoundary b ++ (crlf ++ Z)) := by
    rcases hpre1 with h | h
    · rw [h, List.nil_append]
      simp [splitLines, splitLinesAux_nil]
    · exact splitLinesAux_append h [] _
  have hdelim : splitLines (dashBoundary b ++ (crlf ++ Z)) =
      (dashBoundary b ++ crlf) :: splitLines Z := splitLinesAux_delimLine hblf Z
  have hskip : skipPreamble b
      (splitLines pre ++ ((dashBoundary b ++ crlf) :: splitLines Z)) =
      .found (splitLines Z) := by
    rw [skipPreamble_append _ _ hpre2,
      skipPreamble_found _ (delim_line_is_delim b) (delim_line_not_final b)
        (by rw [delim_line_length]; omega)]
  rw [parseMultipart, hsplit, hdelim]
  unfold parseFromLines
  rw [hskip]

/-- **C6.** A part whose header block is immediately followed by a delimiter
line (no content lines between the blank header terminator and the
delimiter) yields a body of exactly 0 bytes and the ordinary end-of-part
completion, with no error. -/
theorem zero_length_body {b pre ep : List Char} {hdrs : List (List Char × List Char)}
    (hb : WFBoundary b = true) (hpre : WFPreamble b pre = true)
    (hh : ∀ h ∈ hdrs, WFHeaderPair h = true) :
    parseMultipart b
      (pre ++ dashBoundary b ++ crlf ++ encodeHeaders hdrs ++ crlf ++
        finalDelimiterLine b ++ ep) =
      ([⟨hdrs, .ok []⟩], .noMoreParts) := by
  obtain ⟨hblf, hblen⟩ := WFBoundary_unpack hb
  simp only [List.append_assoc]
  rw [parse_front hb hpre]
  have hz : splitLines (encodeHeaders hdrs ++ (crlf ++ (finalDelimiterLine b ++ ep))) =
      hdrs.map encodeHeaderLine ++ crlf :: finalDelimiterLine b :: splitLines ep := by
    rw [splitLines, splitLinesAux_headers hh, splitLinesAux_crlf,
      splitLinesAux_finalLine hblf]
    rfl
  rw [hz]
  have h1 := readHeaderBlock_encode hdrs [] (finalDelimiterLine b :: splitLines ep) hh
  rw [List.reverse_nil, List.nil_append] at h1
  have h2 : readBody b [] (finalDelimiterLine b :: splitLines ep) =
      .ok ([], true, splitLines ep) := by
    rw [readBody_delim _ _ (final_line_is_delim b) (by rw [final_line_length]; omega),
      final_line_is_final]
  rw [parsePartsAux_step h1 h2, if_pos rfl]

/-- Witness for C6 on the zero-length-body test input. -/
theorem zero_length_body_witness :
    (WFBoundary "MyBoundary".toList = true ∧
     WFPreamble "MyBoundary".toList
       "\r\nThis is a multi-part message.  This line is ignored.\r\n".toList = true ∧
     (∀ h ∈ [("foo".toList, "bar".toList)], WFHeaderPair h = true)) ∧
    parseMultipart "MyBoundary".toList
        ("\r\nThis is a multi-part message.  This line is ignored.\r\n".toList ++
          dashBoundary "MyBoundary".toList ++ crlf ++
          encodeHeaders [("foo".toList, "bar".toList)] ++ crlf ++
          finalDelimiterLine "MyBoundary".toList ++ [] ) =
      ([⟨[("foo".toList, "bar".toList)], .ok []⟩], .noMoreParts) :=
  ⟨⟨by decide, by decide, by decide⟩,
    zero_length_body (by decide) (by decide) (by decide)⟩

/-- **C4.** If the stream ends while a part body is still open (no delimiter
line before exhaustion), reading that part's body yields
`UnexpectedEndOfInput` — not a short body with a success signal — and the
session ends with that same terminal error. -/
theorem truncated_body_unexpectedEOF {b pre tail : List Char}
    {hdrs : List (List Char × List Char)}
    (hb : WFBoundary b = true) (hpre : WFPreamble b pre = true)
    (hh : ∀ h ∈ hdrs, WFHeaderPair h = true)
    (ht : ∀ l ∈ splitLines tail, lineOkFor b l = true) :
    parseMultipart b
      (pre ++ dashBoundary b ++ crlf ++ encodeHeaders hdrs ++ crlf ++ tail) =
      ([⟨hdrs, .error .unexpectedEndOfInput⟩], .err .unexpectedEndOfInput) := by
  simp only [List.append_assoc]
  rw [parse_front hb hpre]
  have hz : splitLines (encodeHeaders hdrs ++ (crlf ++ tail)) =
      hdrs.map encodeHeaderLine ++ crlf :: splitLines tail := by
    rw [splitLines, splitLinesAux_headers hh, splitLinesAux_crlf]
    rfl
  rw [hz]
  have h1 := readHeaderBlock_encode hdrs [] (splitLines tail) hh
  rw [List.reverse_nil, List.nil_append] at h1
  have h2 := readBody_noDelim (splitLines tail) [] ht
  rw [parsePartsAux_step_err h1 h2]

/-- Witness for C4 on the truncated test input. -/
theorem truncated_body_unexpectedEOF_witness :
    (WFBoundary "MyBoundary".toList = true ∧
     WFPreamble "MyBoundary".toList
       "\r\nThis is a multi-part message.  This line is ignored.\r\n".toList = true ∧
     (∀ h ∈ [("foo-bar".toList, "baz".toList)], WFHeaderPair h = true) ∧
     (∀ l ∈ splitLines "Oh no, premature EOF!\r\n".toList,
        lineOkFor "MyBoundary".toList l = true)) ∧
    parseMultipart "MyBoundary".toList
        ("\r\nThis is a multi-part message.  This line is ignored.\r\n".toList ++
          dashBoundary "MyBoundary".toList ++ crlf ++
          encodeHeaders [("foo-bar".toList, "baz".toList)] ++ crlf ++
          "Oh no, premature EOF!\r\n".toList) =
      ([⟨[("foo-bar".toList, "baz".toList)], .error .unexpectedEndOfInput⟩],
        .err .unexpectedEndOfInput) :=
  ⟨⟨by decide, by decide, by decide, by decide⟩,
    truncated_body_unexpectedEOF (by decide) (by decide) (by decide) (by decide)⟩

/-- **C1.** For every well-formed multipart input constructed with `N` parts,
the session yields exactly those `N` parts in order and then `NoMoreParts`;
each yielded part's headers (recoverable by case-insensitive lookup) and
fully-read body bytes equal exactly the headers and body written for it. -/
theorem nextPart_yields_parts_then_noMoreParts
    {b pre ep : List Char} {parts : List RawPart}
    (hb : WFBoundary b = true) (hpre : WFPreamble b pre = true)
    (hwf : ∀ p ∈ parts, WFRawPart b p = true) :
    parseMultipart b (encodeMultipart b pre parts ep) =
      (parts.map RawPart.toPart, .noMoreParts) ∧
    ∀ q ∈ (parseMultipart b (encodeMultipart b pre parts ep)).1,
      DistinctKeysCI q.headers → ∀ kv ∈ q.headers, headerGet q.headers kv.1 = kv.2 := by
  refine ⟨parse_encode hb hpre hwf, ?_⟩
  intro q _ hdist kv hkv
  exact headerGet_distinct q.headers hdist kv hkv

/-- Witness for C1 with two parts, a preamble and an epilogue. -/
theorem nextPart_yields_parts_then_noMoreParts_witness :
    (WFBoundary "MyBoundary".toList = true ∧
     WFPreamble "MyBoundary".toList "preamble line\r\n".toList = true ∧
     (∀ p ∈ [(⟨[("Header1".toList, "value1".toList), ("foo-bar".toList, "baz".toList)],
               "My value\r\nThe end.".toList⟩ : RawPart),
             ⟨[("name".toList, "bigsection".toList)], "Line 1\nLine 2".toList⟩],
        WFRawPart "MyBoundary".toList p = true)) ∧
    (parseMultipart "MyBoundary".toList
        (encodeMultipart "MyBoundary".toList "preamble line\r\n".toList
          [⟨[("Header1".toList, "value1".toList), ("foo-bar".toList, "baz".toList)],
             "My value\r\nThe end.".toList⟩,
           ⟨[("name".toList, "bigsection".toList)], "Line 1\nLine 2".toList⟩]
          "useless trailer\r\n".toList) =
      ([(⟨[("Header1".toList, "value1".toList), ("foo-bar".toList, "baz".toList)],
          "My value\r\nThe end.".toList⟩ : RawPart),
        ⟨[("name".toList, "bigsection".toList)], "Line 1\nLine 2".toList⟩].map
          RawPart.toPart, .noMoreParts) ∧
     ∀ q ∈ (parseMultipart "MyBoundary".toList
        (encodeMultipart "MyBoundary".toList "preamble line\r\n".toList
          [⟨[("Header1".toList, "value1".toList), ("foo-bar".toList, "baz".toList)],
             "My value\r\nThe end.".toList⟩,
           ⟨[("name".toList, "bigsection".toList)], "Line 1\nLine 2".toList⟩]
          "useless trailer\r\n".toList)).1,
      DistinctKeysCI q.headers → ∀ kv ∈ q.headers, headerGet q.headers kv.1 = kv.2) :=
  ⟨⟨by decide, by decide, by decide⟩,
    nextPart_yields_parts_then_noMoreParts (by decide) (by decide) (by decide)⟩

/-- **C9.** After the final delimiter has been seen, every subsequent
`next_part` call yields the `NoMoreParts` signal with no part, and that
signal is not an error: it is distinct from every `MErr`. -/
theorem terminal_noMoreParts {b pre ep : List Char} {parts : List RawPart}
    (hb : WFBoundary b = true) (hpre : WFPreamble b pre = true)
    (hwf : ∀ p ∈ parts, WFRawPart b p = true) {n : Nat} (hn : parts.length ≤ n) :
    nextPartCall b (encodeMultipart b pre parts ep) n = .inr .noMoreParts ∧
      ∀ e : MErr, (EndSignal.noMoreParts : EndSignal) ≠ .err e := by
  have hp := @parse_encode b pre ep parts hb hpre hwf
  constructor
  · have hnone : (parseMultipart b (encodeMultipart b pre parts ep)).1[n]? = none := by
      rw [hp]
      exact List.getElem?_eq_none_iff.mpr (by simpa using hn)
    rw [nextPartCall, hnone, hp]
  · intro e h
    exact EndSignal.noConfusion h

/-- Witness for C9: the third and later calls after a one-part body. -/
theorem terminal_noMoreParts_witness :
    (WFBoundary "B".toList = true ∧
     WFPreamble "B".toList [] = true ∧
     (∀ p ∈ [(⟨[("k".toList, "v".toList)], "data".toList⟩ : RawPart)],
        WFRawPart "B".toList p = true) ∧
     ([(⟨[("k".toList, "v".toList)], "data".toList⟩ : RawPart)].length ≤ 2)) ∧
    (nextPartCall "B".toList
        (encodeMultipart "B".toList []
          [⟨[("k".toList, "v".toList)], "data".toList⟩] []) 2 = .inr .noMoreParts ∧
      ∀ e : MErr, (EndSignal.noMoreParts : EndSignal) ≠ .err e) :=
  ⟨⟨by decide, by decide, by decide, by decide⟩,
    terminal_noMoreParts (by decide) (by decide) (by decide) (by decide)⟩

/-- **C5.** For a source that supplies an unbounded run of bytes with no
line terminator (and hence no boundary line), `next_part` fails with the
`SizeLimitExceeded` error, and the total number of bytes consumed from the
source is bounded by the configured line-length bound — under 2× the
1 MiB threshold. -/
theorem unbounded_line_sizeLimit {b : List Char} {src : Nat → Char}
    (h : ∀ i, src i ≠ '\n') {fuel : Nat} (hf : 0 < fuel) :
    (nextPartStream b src fuel 0).1 = .failed .sizeLimitExceeded ∧
    (nextPartStream b src fuel 0).2 ≤ maxLineLength ∧
    (nextPartStream b src fuel 0).2 < 2 * 1048576 := by
  rw [nextPartStream_noLF h hf 0]
  refine ⟨rfl, by simp, ?_⟩
  simp [maxLineLength]

/-- Witness for C5 on the constant non-terminator source. -/
theorem unbounded_line_sizeLimit_witness :
    ((∀ i : Nat, (fun _ : Nat => 'x') i ≠ '\n') ∧ 0 < 1) ∧
    ((nextPartStream "fooBoundary".toList (fun _ : Nat => 'x') 1 0).1 =
        .failed .sizeLimitExceeded ∧
     (nextPartStream "fooBoundary".toList (fun _ : Nat => 'x') 1 0).2 ≤ maxLineLength ∧
     (nextPartStream "fooBoundary".toList (fun _ : Nat => 'x') 1 0).2 < 2 * 1048576) :=
  ⟨⟨fun _ => by show ('x' : Char) ≠ '\n'; decide, by decide⟩,
    unbounded_line_sizeLimit (fun _ => by show ('x' : Char) ≠ '\n'; decide) (by decide)⟩

/-- **C7.** `form_name` and `file_name` come from the `Content-Disposition`
header: disposition type and parameter names are case-insensitive, values
optionally quoted; a `form-data` disposition yields the `name` parameter, a
non-`form-data` disposition still yields `filename` but an empty form name;
an absent header or parameter yields the empty string, not an error. -/
theorem formName_fileName_accessors :
    ((cdPart "form-data; name=\"foo\"".toList).FormName = "foo".toList ∧
     (cdPart "form-data; name=\"foo\"".toList).FileName = []) ∧
    (cdPart " form-data ; name=foo".toList).FormName = "foo".toList ∧
    (cdPart "FORM-DATA;name=\"foo\"".toList).FormName = "foo".toList ∧
    (cdPart " FORM-DATA ; name=\"foo\"".toList).FormName = "foo".toList ∧
    (cdPart " FORM-DATA ; name=foo".toList).FormName = "foo".toList ∧
    ((cdPart " FORM-DATA ; filename=\"foo.txt\"; name=foo; baz=quux".toList).FormName =
        "foo".toList ∧
     (cdPart " FORM-DATA ; filename=\"foo.txt\"; name=foo; baz=quux".toList).FileName =
        "foo.txt".toList) ∧
    ((cdPart " not-form-data ; filename=\"bar.txt\"; name=foo; baz=quux".toList).FormName =
        [] ∧
     (cdPart " not-form-data ; filename=\"bar.txt\"; name=foo; baz=quux".toList).FileName =
        "bar.txt".toList) ∧
    (cdPart "form-data; NAME=bar".toList).FormName = "bar".toList ∧
    (Part.FormName ⟨[("content-disposition".toList, "form-data; name=x".toList)],
        .ok []⟩ = "x".toList) ∧
    (Part.FormName ⟨[], .ok []⟩ = [] ∧ Part.FileName ⟨[], .ok []⟩ = []) ∧
    ((cdPart "form-data".toList).FormName = [] ∧
     (cdPart "form-data".toList).FileName = []) := by
  decide

/-- **C8.** Delivering the input one byte per underlying read produces
exactly the same parts, headers, body bytes, and final signal as delivering
the same bytes in one large chunk. -/
theorem slow_input_equivalence (b input : List Char) :
    parseMultipartChunks b (input.map fun c => [c]) =
      parseMultipartChunks b [input] := by
  rw [parseMultipartChunks_eq, parseMultipartChunks_eq]
  have h1 : (input.map fun c => [c]).flatten = input := by
    induction input with
    | nil => simp
    | cons c cs ih => simp [ih]
  have h2 : ([input] : List (List Char)).flatten = input := by simp
  rw [h1, h2]

end Multipart
